import Mathlib

/- Formal model of `text_image_generator.py`: the font catalog scan and its
   on-disk cache, the text-layout engine, the asynchronous preview scheduler,
   and the export pipeline.  Effectful library calls (PIL drawing, file I/O,
   JSON) are modelled by explicit data: a render is the draw-call record it
   would issue, an export is the list of files it would write. -/

namespace TextImageGen

/-! ## String helpers mirroring Python primitives -/

/-- Tail of `s` after the first occurrence of `pat`, scanning left to right;
`none` when `pat` does not occur.  This mirrors both the Python membership
test `pat in s` (via `Option.isSome`) and `s.split(pat, 1)[1]`. -/
def firstMatchTail (pat : List Char) : List Char → Option (List Char)
  | [] => if List.isPrefixOf pat ([] : List Char) then some [] else none
  | c :: cs =>
    if List.isPrefixOf pat (c :: cs) then some (List.drop pat.length (c :: cs))
    else firstMatchTail pat cs

/-- Python `pat in s`. -/
def strContains (s pat : String) : Bool := (firstMatchTail pat.data s.data).isSome

/-- Python `s[:n]` for `0 ≤ n`. -/
def strTake (s : String) (n : Nat) : String := ⟨s.data.take n⟩

/-- Python `s.endswith(suf)`. -/
def strEndsWith (s suf : String) : Bool := List.isSuffixOf suf.data s.data

/-- Python `s.lower()`, on the ASCII range the program's anchor names,
alignment names and file extensions draw from. -/
def strLower (s : String) : String := ⟨s.data.map Char.toLower⟩

/-- Scanner for `s.replace(pat, rep)`: at skip count 0, an occurrence of
`pat` emits `rep` and skips the rest of the match; otherwise the character
is kept and scanning continues. -/
def replaceAllAux (pat rep : List Char) : Nat → List Char → List Char
  | _, [] => []
  | 0, c :: cs =>
    if List.isPrefixOf pat (c :: cs) then rep ++ replaceAllAux pat rep (pat.length - 1) cs
    else c :: replaceAllAux pat rep 0 cs
  | k + 1, _ :: cs => replaceAllAux pat rep k cs

/-- Python `s.replace(pat, rep)`: replace every non-overlapping occurrence,
left to right. -/
def strReplace (s pat rep : String) : String := ⟨replaceAllAux pat.data rep.data 0 s.data⟩

/-! ## Layout engine (`create_text_image_pil` / `create_mask_image`) -/

/-- Membership test the layout code performs: `tok in position.lower()`. -/
def posContains (tok pos : String) : Bool := strContains (strLower pos) tok

/-- Horizontal draw origin from the measured bounding box, as computed by
both render passes.  Python `//` is floor division, hence `Int.fdiv`. -/
def computeX (position : String) (size padding left right : Int) : Int :=
  let w := right - left
  if posContains "left" position then padding - left
  else if posContains "right" position then size - w - left - padding
  else Int.fdiv (size - w) 2 - left

/-- Vertical draw origin from the measured bounding box, as computed by
both render passes. -/
def computeY (position : String) (size padding top bottom : Int) : Int :=
  let h := bottom - top
  if posContains "top" position then padding - top
  else if posContains "bottom" position then size - h - top - padding
  else Int.fdiv (size - h) 2 - top

structure RGBA where
  r : Nat
  g : Nat
  b : Nat
  a : Nat
deriving DecidableEq, Repr

/-- Fill value handed to PIL: an RGBA color for the color pass or a single
gray level for the `"L"`-mode mask pass. -/
inductive Fill where
  | rgba (c : RGBA)
  | gray (v : Nat)
deriving DecidableEq, Repr

/-- The one `draw.text` call a render issues, recorded as data. -/
structure DrawCall where
  x : Int
  y : Int
  text : String
  fill : Fill
  strokeWidth : Option Int
  strokeFill : Option Fill
  align : String
  spacing : Int
deriving DecidableEq, Repr

/-- A produced bitmap: its PIL mode, square canvas size, background fill and
the single draw call rendered onto it. -/
structure ImageSpec where
  mode : String
  size : Int
  background : Fill
  draw : DrawCall
deriving DecidableEq, Repr

/-- Abstract glyph measurement supplied by the font rasterizer: given text,
alignment and line spacing, the tight bounding box `(left, top, right,
bottom)` that `draw.textbbox((0, 0), ...)` reports for the resolved font. -/
def FontMetrics : Type := String → String → Int → Int × Int × Int × Int

/-- A sized font handle: either PIL's built-in default or a truetype font
loaded from a path at a pixel size. -/
inductive FontHandle where
  | default_font
  | truetype (path : String) (size : Int)
deriving DecidableEq, Repr

/-- The mutable application state the render methods read from `self`.
`preview_req_id` and `font_obj_cache` are layout-irrelevant and listed to
make the purity statement about the rest meaningful. -/
structure AppState where
  outline_enabled : Bool
  outline_width_var : Int
  text_color_rgb : RGBA
  outline_color_rgb : RGBA
  preview_req_id : Nat
  font_obj_cache : List ((String × Int) × FontHandle)
deriving DecidableEq, Repr

/-- Model of `create_text_image_pil`: a transparent RGBA canvas of side
`size`, the bounding box measured by `font_obj`, the anchor arithmetic, and
one draw call with optional stroke depending on `outline_enabled`. -/
def create_text_image_pil (st : AppState) (font_obj : FontMetrics) (text : String)
    (size : Int) (alignment position : String) (padding line_spacing : Int) : ImageSpec :=
  let align_lower := strLower alignment
  let (left, top, right, bottom) := font_obj text align_lower line_spacing
  let x := computeX position size padding left right
  let y := computeY position size padding top bottom
  if st.outline_enabled then
    { mode := "RGBA", size := size, background := Fill.rgba ⟨0, 0, 0, 0⟩,
      draw := { x := x, y := y, text := text, fill := Fill.rgba st.text_color_rgb,
                strokeWidth := some st.outline_width_var,
                strokeFill := some (Fill.rgba st.outline_color_rgb),
                align := align_lower, spacing := line_spacing } }
  else
    { mode := "RGBA", size := size, background := Fill.rgba ⟨0, 0, 0, 0⟩,
      draw := { x := x, y := y, text := text, fill := Fill.rgba st.text_color_rgb,
                strokeWidth := none, strokeFill := none,
                align := align_lower, spacing := line_spacing } }

/-- Model of `create_mask_image`: a zeroed `"L"` canvas, the same bounding
box and anchor arithmetic, fill fixed at 255, stroke width 0 when outline is
disabled and `outline_width_var` when enabled, stroke fill fixed at 255. -/
def create_mask_image (st : AppState) (font_obj : FontMetrics) (text : String)
    (size : Int) (alignment position : String) (padding line_spacing : Int) : ImageSpec :=
  let align_lower := strLower alignment
  let (left, top, right, bottom) := font_obj text align_lower line_spacing
  let x := computeX position size padding left right
  let y := computeY position size padding top bottom
  let stroke_w : Int := if st.outline_enabled then st.outline_width_var else 0
  { mode := "L", size := size, background := Fill.gray 0,
    draw := { x := x, y := y, text := text, fill := Fill.gray 255,
              strokeWidth := some stroke_w, strokeFill := some (Fill.gray 255),
              align := align_lower, spacing := line_spacing } }

/-! ## Font name cleaning (`_scan_fonts_thread`) -/

/-- Suffix candidates in the exact order the scan loop tries them. -/
def styleSuffixes : List String := ["-Regular", "-Bold", "Regular", "Bold", "Italic", "-Italic"]

/-- Strip the first matching style suffix from the end of a font file stem;
the loop breaks after one strip, so at most one suffix is removed. -/
def cleanFontName (font_name : String) : String :=
  match styleSuffixes.find? (fun suf => strEndsWith font_name suf) with
  | some suf => strTake font_name (font_name.data.length - suf.data.length)
  | none => font_name

/-! ## Path helpers (`os.path` on the normalized, slash-only form) -/

/-- Index of the last `'/'` in the character list, if any. -/
def lastSlashPos : List Char → Option Nat
  | [] => none
  | c :: cs =>
    match lastSlashPos cs with
    | some i => some (i + 1)
    | none => if c = '/' then some 0 else none

/-- Strip trailing slashes, as `head.rstrip('/')` does. -/
def rstripSlash (l : List Char) : List Char := (l.reverse.dropWhile (fun c => c = '/')).reverse

/-- `os.path.split` for a slash-separated path: cut after the last `'/'`,
then strip trailing slashes from the head unless it consists of slashes. -/
def pathSplit (p : String) : String × String :=
  match lastSlashPos p.data with
  | none => ("", p)
  | some i =>
    let head := p.data.take (i + 1)
    let tail := p.data.drop (i + 1)
    (⟨if head.any (fun c => c ≠ '/') then rstripSlash head else head⟩, ⟨tail⟩)

/-- `os.path.dirname`. -/
def dirname (p : String) : String := (pathSplit p).1

/-- `os.path.basename`. -/
def basename (p : String) : String := (pathSplit p).2

/-- `os.path.join(a, b)` for one relative component. -/
def path_join (a b : String) : String :=
  if List.isPrefixOf "/".data b.data then b
  else if a = "" || List.isSuffixOf "/".data a.data then a ++ b
  else a ++ "/" ++ b

/-- Python `absolute_path.replace("\\", "/")`. -/
def normalizeSeps (p : String) : String :=
  ⟨p.data.map (fun c => if c = '\\' then '/' else c)⟩

/-- Model of `get_relative_texture_path`: normalize separators; if
`"/materials/"` occurs, return `"materials/"` plus the part after its first
occurrence; otherwise fall back to `materials/<parent-dir-name>/<filename>`. -/
def get_relative_texture_path (absolute_path : String) : String :=
  let normalized := normalizeSeps absolute_path
  match firstMatchTail "/materials/".data normalized.data with
  | some split_part => "materials/" ++ (⟨split_part⟩ : String)
  | none =>
    let parent := basename (dirname normalized)
    let filename := basename normalized
    "materials/" ++ parent ++ "/" ++ filename

/-- Model of `generate_vmat_content`: the fixed material template with the
shader name and the two texture references interpolated. -/
def generate_vmat_content (shader color_path trans_path : String) : String :=
  "// THIS FILE IS AUTO-GENERATED\n\nLayer0\n\x7b\n\tshader \"" ++ shader ++
  "\"\n\n\t//---- Blend Mode ----\n\tF_BLEND_MODE 1 // Translucent\n\n" ++
  "\t//---- Color ----\n\tg_flModelTintAmount \"1.000\"\n" ++
  "\tg_vColorTint \"[1.000000 1.000000 1.000000 0.000000]\"\n" ++
  "\tTextureColor \"" ++ color_path ++ "\"\n\n" ++
  "\t//---- Fog ----\n\tg_bFogEnabled \"1\"\n\n" ++
  "\t//---- Translucent ----\n\tg_flOpacityScale \"1.000\"\n" ++
  "\tTextureTranslucency \"" ++ trans_path ++ "\"\n\x7d\n"

/-! ## Font catalog scan (`_scan_fonts_thread`) -/

/-- One file met during the directory walk: the directory `root` handed back
by `os.walk` and the bare file name. -/
structure FileEnt where
  root : String
  file : String
deriving DecidableEq, Repr

/-- Python `file.lower().endswith(('.ttf', '.otf'))`. -/
def hasFontExt (file : String) : Bool :=
  strEndsWith (strLower file) ".ttf" || strEndsWith (strLower file) ".otf"

/-- Part of the name before the last dot, when a dot exists. -/
def stemBeforeLastDot : List Char → Option (List Char)
  | [] => none
  | c :: cs =>
    match stemBeforeLastDot cs with
    | some rest => some (c :: rest)
    | none => if c = '.' then some [] else none

/-- `os.path.splitext(file)[0]` for a bare file name: cut at the last dot
unless every character before it is a dot (leading dots are not an
extension separator). -/
def splitextStem (file : String) : String :=
  match stemBeforeLastDot file.data with
  | some pre => if pre.any (fun c => c ≠ '.') then ⟨pre⟩ else file
  | none => file

/-- The scanned catalog: the sorted name list and the name-to-path mapping,
the latter as an association list in insertion order. -/
structure Catalog where
  names : List String
  paths : List (String × String)
deriving DecidableEq, Repr

/-- Python string comparison: lexicographic on code points. -/
def charListLe : List Char → List Char → Bool
  | [], _ => true
  | _ :: _, [] => false
  | a :: as, b :: bs =>
    if a.toNat < b.toNat then true
    else if b.toNat < a.toNat then false
    else charListLe as bs

/-- Python `a <= b` on strings. -/
def strLe (a b : String) : Bool := charListLe a.data b.data

/-- Insert into a `strLe`-sorted list. -/
def insertSorted (a : String) : List String → List String
  | [] => [a]
  | b :: bs => if strLe a b then a :: b :: bs else b :: insertSorted a bs

/-- Python `sorted`: ascending stable sort, modelled by insertion sort (the
scanned names are pairwise distinct, so any correct sort agrees). -/
def sortNames (l : List String) : List String := l.foldr insertSorted []

/-- Dictionary lookup in an association list (first binding wins). -/
def findPath (paths : List (String × String)) (k : String) : Option String :=
  (paths.find? (fun p => p.1 == k)).map Prod.snd

/-- One iteration of the scan loop body over `(verified_fonts, temp_paths)`:
font-extension filter, name cleaning, and the `font_name and font_name not
in temp_paths` guard before recording the entry. -/
def scanStep (acc : List String × List (String × String)) (f : FileEnt) :
    List String × List (String × String) :=
  if hasFontExt f.file then
    let font_name := cleanFontName (splitextStem f.file)
    if font_name ≠ "" ∧ (findPath acc.2 font_name).isNone then
      (acc.1 ++ [font_name], acc.2 ++ [(font_name, path_join f.root f.file)])
    else acc
  else acc

/-- Model of the scan phase of `_scan_fonts_thread` over the flattened walk
order: `available_fonts = sorted(list(set(verified_fonts)))` and
`font_paths = temp_paths`. -/
def scanFonts (files : List FileEnt) : Catalog :=
  let acc := files.foldl scanStep ([], [])
  { names := sortNames acc.1.dedup, paths := acc.2 }

/-! ## Cache file serialization (`json.dump` / `json.load`) -/

/-- JSON values, restricted to the shapes the cache file uses. -/
inductive JVal where
  | str (s : String)
  | arr (elems : List JVal)
  | obj (fields : List (String × JVal))

/-- Decode a JSON array of strings. -/
def decodeStrList : List JVal → Option (List String)
  | [] => some []
  | JVal.str s :: rest => (decodeStrList rest).map (fun l => s :: l)
  | _ => none

/-- Decode a JSON object whose values are all strings. -/
def decodeStrPairs : List (String × JVal) → Option (List (String × String))
  | [] => some []
  | (k, JVal.str v) :: rest => (decodeStrPairs rest).map (fun l => (k, v) :: l)
  | _ => none

/-- Lookup of a field in a JSON object, as `data["key"]`. -/
def jsonField (fields : List (String × JVal)) (k : String) : Option JVal :=
  (fields.find? (fun p => p.1 == k)).map Prod.snd

/-- `json.dump({"names": ..., "paths": ...})` on a catalog. -/
def encodeCatalog (c : Catalog) : JVal :=
  JVal.obj [("names", JVal.arr (c.names.map JVal.str)),
            ("paths", JVal.obj (c.paths.map (fun p => (p.1, JVal.str p.2))))]

/-- The load phase of `_scan_fonts_thread`: read `data["names"]` and
`data["paths"]` back from the parsed cache file; any shape mismatch is a
cache miss (`none`). -/
def decodeCatalog (j : JVal) : Option Catalog :=
  match j with
  | JVal.obj fields =>
    match jsonField fields "names", jsonField fields "paths" with
    | some (JVal.arr ns), some (JVal.obj ps) =>
      match decodeStrList ns, decodeStrPairs ps with
      | some names, some paths => some { names := names, paths := paths }
      | _, _ => none
    | _, _ => none
  | _ => none

/-! ## Sized font lookup (`get_font_object`) -/

/-- Model of `get_font_object`.  `loadTruetype` abstracts
`ImageFont.truetype`, returning `none` when loading raises.  Returns the
resolved handle and the possibly updated `_font_obj_cache`: a memoized hit
is returned as is; on a successful load the cache is bulk-cleared first
when it holds more than 50 entries and the new entry is inserted; a catalog
miss or a load failure falls back to the default font without touching the
cache. -/
def get_font_object (font_paths : List (String × String))
    (loadTruetype : String → Int → Option FontHandle)
    (cache : List ((String × Int) × FontHandle)) (font_name : String) (size : Int) :
    FontHandle × List ((String × Int) × FontHandle) :=
  match (cache.find? (fun e => e.1 == (font_name, size))).map Prod.snd with
  | some fnt => (fnt, cache)
  | none =>
    match findPath font_paths font_name with
    | some p =>
      match loadTruetype p size with
      | some fnt =>
        let c := if cache.length > 50 then [] else cache
        (fnt, c ++ [((font_name, size), fnt)])
      | none => (FontHandle.default_font, cache)
    | none => (FontHandle.default_font, cache)

/-! ## Preview scheduler (`update_preview_thread_launcher` / `_apply_preview`) -/

/-- Text handed to the preview render: `text_input.get(...) or " "`; the
empty string is the only falsy string, so it alone is replaced. -/
def launcher_text (raw : String) : String := if raw = "" then " " else raw

/-- Events of a preview session: a debounced parameter change that submits a
render on the controlling thread, or the completion callback of the render
tagged `req_id`. -/
inductive PreviewEv where
  | change
  | complete (req_id : Nat)
deriving DecidableEq, Repr

/-- Run the scheduler from counter value `ctr`.  A `change` increments
`preview_req_id` and tags the submitted render with the new value; a
`complete req_id` applies its result only when `req_id` still equals the
counter (`_apply_preview`'s guard), otherwise it is dropped.  Returns the
final counter, the tags handed out to submitted renders, and the tags whose
results were applied, in order. -/
def schedRun (ctr : Nat) : List PreviewEv → Nat × List Nat × List Nat
  | [] => (ctr, [], [])
  | PreviewEv.change :: evs =>
    let (cF, subs, apps) := schedRun (ctr + 1) evs
    (cF, (ctr + 1) :: subs, apps)
  | PreviewEv.complete req_id :: evs =>
    let (cF, subs, apps) := schedRun ctr evs
    (cF, subs, if req_id = ctr then req_id :: apps else apps)

/-- Tags of the results a preview session applies, starting from a fresh
counter. -/
def appliedTags (evs : List PreviewEv) : List Nat := (schedRun 0 evs).2.2

/-- Tags handed out to submitted renders, starting from a fresh counter. -/
def submittedTags (evs : List PreviewEv) : List Nat := (schedRun 0 evs).2.1

/-! ## Export pipeline (`_gather_and_save` / `_perform_save` / `_perform_batch`) -/

/-- Content of one written file. -/
inductive FileContent where
  | image (spec : ImageSpec)
  | textfile (content : String)
deriving DecidableEq, Repr

/-- The record `_gather_and_save` builds on the controlling thread. -/
structure SaveData where
  size : Int
  text : String
  font_size : Int
  alignment : String
  position : String
  padding : Int
  line_spacing : Int
  mask : Bool
  vmat : Bool
  shader : String
deriving Repr

/-- The widget state `_gather_and_save` reads. -/
structure GatherState where
  current_size : Int
  raw_text : String
  font_size : Int
  alignment : String
  position : String
  padding : Int
  line_spacing : Int
  mask_layer_enabled : Bool
  vmat_enabled : Bool
  shader : String
deriving Repr

/-- Model of `_gather_and_save`'s data dictionary: every field is copied
verbatim; in particular `text` is the raw textbox content, with no
empty-string replacement. -/
def gather_save_data (g : GatherState) : SaveData :=
  { size := g.current_size, text := g.raw_text, font_size := g.font_size,
    alignment := g.alignment, position := g.position, padding := g.padding,
    line_spacing := g.line_spacing, mask := g.mask_layer_enabled,
    vmat := g.vmat_enabled, shader := g.shader }

/-- Model of `_perform_save`: the files the single export writes, in write
order.  `abspath` abstracts `os.path.abspath`. -/
def perform_save (st : AppState) (font_obj : FontMetrics) (abspath : String → String)
    (save_path : String) (d : SaveData) : List (String × FileContent) :=
  let base_path := strReplace (strReplace save_path "_color.png" "") ".png" ""
  let img := create_text_image_pil st font_obj d.text d.size d.alignment d.position d.padding d.line_spacing
  let color_filename := base_path ++ "_color.png"
  let trans_filename := base_path ++ "_trans.png"
  let mask := create_mask_image st font_obj d.text d.size d.alignment d.position d.padding d.line_spacing
  [(color_filename, FileContent.image img)]
  ++ (if d.mask || d.vmat then [(trans_filename, FileContent.image mask)] else [])
  ++ (if d.vmat then
        [(base_path ++ ".vmat", FileContent.textfile (generate_vmat_content d.shader
          (get_relative_texture_path (abspath color_filename))
          (get_relative_texture_path (abspath trans_filename))))]
      else [])

/-- The files digit `i` of the batch writes, in write order. -/
def digit_files (directory : String) (mask vmat : Bool) (i : Nat) : List String :=
  let base := path_join directory (toString i)
  [base ++ "_color.png"]
  ++ (if mask || vmat then [base ++ "_trans.png"] else [])
  ++ (if vmat then [base ++ ".vmat"] else [])

/-- First write in the list that fails, if any.  `saveOk` abstracts whether
writing a given file raises. -/
def first_failing (saveOk : String → Bool) (files : List String) : Option String :=
  files.find? (fun f => !(saveOk f))

/-- The digit loop of `_perform_batch` over the remaining digits: each digit
writes its files in order; the first failing write raises out of the loop
(the single `try` wraps the whole loop), aborting every later digit.
Returns the digits logged as generated and the failing file, if any. -/
def batch_loop (saveOk : String → Bool) (directory : String) (mask vmat : Bool) :
    List Nat → List Nat × Option String
  | [] => ([], none)
  | i :: rest =>
    match first_failing saveOk (digit_files directory mask vmat i) with
    | some f => ([], some f)
    | none =>
      let r := batch_loop saveOk directory mask vmat rest
      (i :: r.1, r.2)

/-- Model of `_perform_batch`: run the digit loop on `0..9`; the second
component is the error reported once by the top-level handler. -/
def perform_batch (saveOk : String → Bool) (directory : String) (mask vmat : Bool) :
    List Nat × Option String :=
  batch_loop saveOk directory mask vmat (List.range 10)

/-! ## General helper lemmas -/

theorem strEq_of_data {a b : String} (h : a.data = b.data) : a = b := by
  cases a
  cases b
  exact congrArg String.mk h

theorem strAppend_left_inj (a : String) {b c : String} : a ++ b = a ++ c ↔ b = c := by
  constructor
  · intro h
    have hd : a.data ++ b.data = a.data ++ c.data := by
      have hdata := congrArg String.data h
      simpa [String.data_append] using hdata
    exact strEq_of_data (List.append_cancel_left hd)
  · intro h
    rw [h]

/-! ## Suffix stripping facts -/

theorem strTake_append_of_endsWith {name suf : String} (h : strEndsWith name suf = true) :
    strTake name (name.data.length - suf.data.length) ++ suf = name := by
  have hs : suf.data <:+ name.data := List.isSuffixOf_iff_suffix.mp h
  obtain ⟨pre, hpre⟩ := hs
  apply strEq_of_data
  rw [String.data_append]
  show (name.data.take (name.data.length - suf.data.length)) ++ suf.data = name.data
  have hlen : name.data.length - suf.data.length = pre.length := by
    rw [← hpre]
    simp
  rw [hlen, ← hpre, List.take_left]

theorem cleanFontName_strips {name suf : String}
    (h : styleSuffixes.find? (fun s => strEndsWith name s) = some suf) :
    cleanFontName name ++ suf = name := by
  unfold cleanFontName
  rw [h]
  exact strTake_append_of_endsWith (List.find?_some h)

/-- C7: font name cleaning strips at most one trailing style suffix, the
first matching entry of the fixed candidate list: whichever suffix the
ordered search finds is removed and nothing else (first conjunct); a name
ending in exactly one recognized suffix loses exactly that suffix (second
conjunct); a name matching no suffix is unchanged (third conjunct). -/
theorem claim_fontName_cleaning (name : String) :
    (∀ suf, styleSuffixes.find? (fun s => strEndsWith name s) = some suf →
       cleanFontName name ++ suf = name)
    ∧ (∀ suf, suf ∈ styleSuffixes → strEndsWith name suf = true →
       (∀ s, s ∈ styleSuffixes → strEndsWith name s = true → s = suf) →
       cleanFontName name ++ suf = name)
    ∧ ((∀ s, s ∈ styleSuffixes → strEndsWith name s = false) →
       cleanFontName name = name) := by
  refine ⟨fun suf h => cleanFontName_strips h, ?_, ?_⟩
  · intro suf hmem hends huniq
    have hex : ∃ x, x ∈ styleSuffixes ∧ strEndsWith name x = true := ⟨suf, hmem, hends⟩
    have hsome : (styleSuffixes.find? (fun s => strEndsWith name s)).isSome := by
      rw [List.find?_isSome]
      simpa using hex
    obtain ⟨s₀, hs₀⟩ := Option.isSome_iff_exists.mp hsome
    have heq : s₀ = suf :=
      huniq s₀ (List.mem_of_find?_eq_some hs₀) (List.find?_some hs₀)
    exact heq ▸ cleanFontName_strips hs₀
  · intro hnone
    have h : styleSuffixes.find? (fun s => strEndsWith name s) = none := by
      rw [List.find?_eq_none]
      intro x hx
      simp [hnone x hx]
    unfold cleanFontName
    rw [h]

/-- Witness for C7 at concrete names: `"ArialBold"` ends in exactly the one
suffix `"Bold"` and loses it; `"Helvetica"` matches no suffix and is kept. -/
theorem claim_fontName_cleaning_witness :
    cleanFontName "ArialBold" ++ "Bold" = "ArialBold"
    ∧ cleanFontName "Helvetica" = "Helvetica" := by
  constructor
  · exact (claim_fontName_cleaning "ArialBold").2.1 "Bold" (by decide) (by decide)
      (fun s hs he => by
        revert he
        fin_cases hs <;> decide)
  · exact (claim_fontName_cleaning "Helvetica").2.2 (fun s hs => by fin_cases hs <;> decide)

/-! ## Single export (C5) -/

/-- C5: for every single export with computed output prefix, the color image
`<prefix>_color.png` is always written; `<prefix>_trans.png` is written iff
mask or material generation is requested; `<prefix>.vmat` is written iff
material generation is requested. -/
theorem claim_single_export_files (st : AppState) (font_obj : FontMetrics)
    (abspath : String → String) (save_path : String) (d : SaveData) :
    let base := strReplace (strReplace save_path "_color.png" "") ".png" ""
    let files := (perform_save st font_obj abspath save_path d).map Prod.fst
    (base ++ "_color.png") ∈ files
    ∧ ((base ++ "_trans.png") ∈ files ↔ (d.mask || d.vmat) = true)
    ∧ ((base ++ ".vmat") ∈ files ↔ d.vmat = true) := by
  cases hm : d.mask <;> cases hv : d.vmat <;>
    simp [perform_save, hm, hv, strAppend_left_inj]

/-! ## Render purity (C3) -/

/-- C3: both render passes are a pure function of the request fields, the
measured font metrics, and the four color/outline fields of the application
state: two states agreeing on those four fields (however they differ on the
rest, such as `preview_req_id` or the font object cache) produce identical
color and mask bitmaps, and rendering returns no state change at all. -/
theorem claim_render_pure (s₁ s₂ : AppState) (font_obj : FontMetrics) (text : String)
    (size : Int) (alignment position : String) (padding spacing : Int)
    (h₁ : s₁.outline_enabled = s₂.outline_enabled)
    (h₂ : s₁.outline_width_var = s₂.outline_width_var)
    (h₃ : s₁.text_color_rgb = s₂.text_color_rgb)
    (h₄ : s₁.outline_color_rgb = s₂.outline_color_rgb) :
    create_text_image_pil s₁ font_obj text size alignment position padding spacing
      = create_text_image_pil s₂ font_obj text size alignment position padding spacing
    ∧ create_mask_image s₁ font_obj text size alignment position padding spacing
      = create_mask_image s₂ font_obj text size alignment position padding spacing := by
  constructor <;> simp [create_text_image_pil, create_mask_image, h₁, h₂, h₃, h₄]

/-- A concrete application state used by witnesses. -/
def stPlain : AppState :=
  { outline_enabled := false, outline_width_var := 4,
    text_color_rgb := ⟨255, 255, 255, 255⟩, outline_color_rgb := ⟨0, 0, 0, 255⟩,
    preview_req_id := 0, font_obj_cache := [] }

/-- A concrete measurement function used by witnesses: every text measures
to the bounding box `(3, 5, 100, 105)`. -/
def bboxFix : FontMetrics := fun _ _ _ => (3, 5, 100, 105)

/-- The state `stPlain` with a bumped request counter and a populated font
object cache, agreeing with `stPlain` on every layout-relevant field. -/
def stBumped : AppState := { stPlain with preview_req_id := 7, font_obj_cache := [(("calibri", 50), FontHandle.default_font)] }

/-- Witness for C3: two concrete states differing only in `preview_req_id`
and the font object cache render identical color and mask bitmaps. -/
theorem claim_render_pure_witness :
    create_text_image_pil stPlain bboxFix "Hi" 512 "Center" "Center" 20 4
      = create_text_image_pil stBumped bboxFix "Hi" 512 "Center" "Center" 20 4
    ∧ create_mask_image stPlain bboxFix "Hi" 512 "Center" "Center" 20 4
      = create_mask_image stBumped bboxFix "Hi" 512 "Center" "Center" 20 4 :=
  claim_render_pure stPlain stBumped bboxFix "Hi" 512 "Center" "Center" 20 4 rfl rfl rfl rfl

/-! ## Layout placement (C1) -/

/-- C1: for both render passes, the draw origin computed from the measured
bounding box `(left, top, right, bottom)` with `w = right - left` and
`h = bottom - top` follows the anchor keywords: `x = padding - left` when
the lowercased anchor contains `"left"`, `x = size - w - left - padding`
when it contains `"right"` (and not `"left"`), and
`x = (size - w) // 2 - left` otherwise; symmetrically for `y` with
`"top"`/`"bottom"`; in particular with `size = 512` and `padding = 20`,
anchor `"Top Left"` yields `(20 - left, 20 - top)` and `"Bottom Right"`
yields `(512 - w - left - 20, 512 - h - top - 20)` on both passes. -/
theorem claim_layout_placement (st : AppState) (font_obj : FontMetrics) (text : String)
    (size : Int) (alignment position : String) (padding spacing left top right bottom : Int)
    (hbb : font_obj text (strLower alignment) spacing = (left, top, right, bottom)) :
    ((create_text_image_pil st font_obj text size alignment position padding spacing).draw.x
        = computeX position size padding left right
     ∧ (create_text_image_pil st font_obj text size alignment position padding spacing).draw.y
        = computeY position size padding top bottom
     ∧ (create_mask_image st font_obj text size alignment position padding spacing).draw.x
        = computeX position size padding left right
     ∧ (create_mask_image st font_obj text size alignment position padding spacing).draw.y
        = computeY position size padding top bottom)
    ∧ (posContains "left" position = true →
        computeX position size padding left right = padding - left)
    ∧ (posContains "left" position = false → posContains "right" position = true →
        computeX position size padding left right = size - (right - left) - left - padding)
    ∧ (posContains "left" position = false → posContains "right" position = false →
        computeX position size padding left right = Int.fdiv (size - (right - left)) 2 - left)
    ∧ (posContains "top" position = true →
        computeY position size padding top bottom = padding - top)
    ∧ (posContains "top" position = false → posContains "bottom" position = true →
        computeY position size padding top bottom = size - (bottom - top) - top - padding)
    ∧ (posContains "top" position = false → posContains "bottom" position = false →
        computeY position size padding top bottom = Int.fdiv (size - (bottom - top)) 2 - top)
    ∧ ((create_text_image_pil st font_obj text 512 alignment "Top Left" 20 spacing).draw.x
          = 20 - left
       ∧ (create_text_image_pil st font_obj text 512 alignment "Top Left" 20 spacing).draw.y
          = 20 - top
       ∧ (create_mask_image st font_obj text 512 alignment "Top Left" 20 spacing).draw.x
          = 20 - left
       ∧ (create_mask_image st font_obj text 512 alignment "Top Left" 20 spacing).draw.y
          = 20 - top)
    ∧ ((create_text_image_pil st font_obj text 512 alignment "Bottom Right" 20 spacing).draw.x
          = 512 - (right - left) - left - 20
       ∧ (create_text_image_pil st font_obj text 512 alignment "Bottom Right" 20 spacing).draw.y
          = 512 - (bottom - top) - top - 20
       ∧ (create_mask_image st font_obj text 512 alignment "Bottom Right" 20 spacing).draw.x
          = 512 - (right - left) - left - 20
       ∧ (create_mask_image st font_obj text 512 alignment "Bottom Right" 20 spacing).draw.y
          = 512 - (bottom - top) - top - 20) := by
  have hTLl : posContains "left" "Top Left" = true := by decide
  have hTLt : posContains "top" "Top Left" = true := by decide
  have hBRl : posContains "left" "Bottom Right" = false := by decide
  have hBRr : posContains "right" "Bottom Right" = true := by decide
  have hBRt : posContains "top" "Bottom Right" = false := by decide
  have hBRb : posContains "bottom" "Bottom Right" = true := by decide
  refine ⟨?_, ?_, ?_, ?_, ?_, ?_, ?_, ?_, ?_⟩
  · cases hst : st.outline_enabled <;>
      simp [create_text_image_pil, create_mask_image, hbb, hst]
  · intro h
    simp [computeX, h]
  · intro h₁ h₂
    simp [computeX, h₁, h₂]
  · intro h₁ h₂
    simp [computeX, h₁, h₂]
  · intro h
    simp [computeY, h]
  · intro h₁ h₂
    simp [computeY, h₁, h₂]
  · intro h₁ h₂
    simp [computeY, h₁, h₂]
  · cases hst : st.outline_enabled <;>
      simp [create_text_image_pil, create_mask_image, hbb, hst, computeX, computeY, hTLl, hTLt]
  · cases hst : st.outline_enabled <;>
      simp [create_text_image_pil, create_mask_image, hbb, hst, computeX, computeY,
            hBRl, hBRr, hBRt, hBRb]

/-- Witness for C1 at a concrete state, measurement and anchor: with the
fixed bounding box `(3, 5, 100, 105)`, anchor `"Top Left"` draws at
`(17, 15)` and anchor `"Bottom Right"` draws at `(392, 387)`. -/
theorem claim_layout_placement_witness :
    (create_text_image_pil stPlain bboxFix "Hi" 512 "Center" "Top Left" 20 4).draw.x = 20 - 3
    ∧ (create_text_image_pil stPlain bboxFix "Hi" 512 "Center" "Bottom Right" 20 4).draw.x
        = 512 - (100 - 3) - 3 - 20
    ∧ (create_mask_image stPlain bboxFix "Hi" 512 "Center" "Bottom Right" 20 4).draw.y
        = 512 - (105 - 5) - 5 - 20 := by
  have h := claim_layout_placement stPlain bboxFix "Hi" 512 "Center" "Center" 20 4
    3 5 100 105 rfl
  exact ⟨h.2.2.2.2.2.2.2.1.1, h.2.2.2.2.2.2.2.2.1, h.2.2.2.2.2.2.2.2.2.2.2⟩

/-! ## Preview scheduler ordering (C2) -/

theorem schedRun_applied_ge (evs : List PreviewEv) :
    ∀ ctr x, x ∈ (schedRun ctr evs).2.2 → ctr ≤ x := by
  induction evs with
  | nil => intro ctr x hx; simp [schedRun] at hx
  | cons e evs ih =>
    intro ctr x hx
    cases e with
    | change =>
      simp only [schedRun] at hx
      exact le_trans (Nat.le_succ ctr) (ih (ctr + 1) x hx)
    | complete req_id =>
      simp only [schedRun] at hx
      by_cases h : req_id = ctr
      · rw [if_pos h] at hx
        rcases List.mem_cons.mp hx with h' | h'
        · omega
        · exact ih ctr x h'
      · rw [if_neg h] at hx
        exact ih ctr x hx

theorem schedRun_applied_sorted (evs : List PreviewEv) :
    ∀ ctr, List.Pairwise (· ≤ ·) (schedRun ctr evs).2.2 := by
  induction evs with
  | nil => intro ctr; simp [schedRun]
  | cons e evs ih =>
    intro ctr
    cases e with
    | change =>
      simp only [schedRun]
      exact ih (ctr + 1)
    | complete req_id =>
      simp only [schedRun]
      by_cases h : req_id = ctr
      · rw [if_pos h]
        exact List.Pairwise.cons
          (fun x hx => h ▸ schedRun_applied_ge evs ctr x hx) (ih ctr)
      · rw [if_neg h]
        exact ih ctr

theorem schedRun_submitted (evs : List PreviewEv) :
    ∀ ctr, (schedRun ctr evs).2.1 = List.range' (ctr + 1) (evs.count PreviewEv.change) := by
  induction evs with
  | nil => intro ctr; simp [schedRun]
  | cons e evs ih =>
    intro ctr
    cases e with
    | change =>
      simp only [schedRun, List.count_cons]
      rw [ih (ctr + 1)]
      simp [List.range'_succ]
    | complete req_id =>
      simp only [schedRun, List.count_cons]
      rw [ih ctr]
      simp

/-- C2: in every preview session, each submitted render is tagged with the
counter value taken right after the synchronous increment at submission
time (the k-th submission carries tag k), and a completed render is applied
only when its tag still equals the counter; consequently the applied tags
form a nondecreasing sequence — no result with a sequence number below the
last applied one is ever applied. -/
theorem claim_preview_scheduler (evs : List PreviewEv) :
    List.Pairwise (· ≤ ·) (appliedTags evs)
    ∧ submittedTags evs = List.range' 1 (evs.count PreviewEv.change) := by
  exact ⟨schedRun_applied_sorted evs 0, schedRun_submitted evs 0⟩

/-! ## Sized-font lookup fallback (C10) -/

/-- A loader for tests that succeeds on every path. -/
def loadAlways : String → Int → Option FontHandle :=
  fun p s => some (FontHandle.truetype p s)

/-- Counterexample to C10 as stated: the memo check precedes the catalog
check, so with a stale cached entry for `("X", 50)` and a catalog that does
not contain `"X"` at all, the lookup returns the cached truetype font, not
the built-in default. -/
theorem claim_font_fallback_counterexample :
    findPath [] "X" = none
    ∧ get_font_object [] loadAlways [(("X", 50), FontHandle.truetype "/old/X.ttf" 50)] "X" 50
        = (FontHandle.truetype "/old/X.ttf" 50, [(("X", 50), FontHandle.truetype "/old/X.ttf" 50)])
    ∧ FontHandle.truetype "/old/X.ttf" 50 ≠ FontHandle.default_font := by
  refine ⟨rfl, by decide, by decide⟩

/-- C10 (amended): when the requested name is absent from the catalog's
name-to-path mapping and the font object cache holds no memoized entry for
`(name, size)`, the lookup silently returns the built-in default font and
leaves the cache unchanged — no entry is added.  (A stale memoized entry,
possible after a rescan, is returned instead of the default.) -/
theorem claim_font_fallback (font_paths : List (String × String))
    (loadTruetype : String → Int → Option FontHandle)
    (cache : List ((String × Int) × FontHandle)) (font_name : String) (size : Int)
    (hmiss : findPath font_paths font_name = none)
    (hcold : cache.find? (fun e => e.1 == (font_name, size)) = none) :
    get_font_object font_paths loadTruetype cache font_name size
      = (FontHandle.default_font, cache) := by
  unfold get_font_object
  rw [hcold, hmiss]
  rfl

/-- Witness for C10 (amended): looking up `"X"` in an empty catalog with an
unrelated cached entry returns the default font and the unchanged cache. -/
theorem claim_font_fallback_witness :
    get_font_object [] loadAlways [(("Y", 12), FontHandle.default_font)] "X" 50
      = (FontHandle.default_font, [(("Y", 12), FontHandle.default_font)]) :=
  claim_font_fallback [] loadAlways [(("Y", 12), FontHandle.default_font)] "X" 50
    (by decide) (by decide)

/-! ## Empty-text replacement (C9) -/

/-- A gathered widget state whose textbox content is empty. -/
def gEmptyText : GatherState :=
  { current_size := 512, raw_text := "", font_size := 50, alignment := "Center",
    position := "Center", padding := 20, line_spacing := 4,
    mask_layer_enabled := false, vmat_enabled := false,
    shader := "csgo_static_overlay.vfx" }

/-- Counterexample to C9 as stated: the single-export path gathers the raw
textbox content with no `or " "` replacement, so an empty text reaches the
renderer — and hence measurement — as the empty string, not as a space. -/
theorem claim_empty_text_counterexample :
    (gather_save_data gEmptyText).text = ""
    ∧ (perform_save stPlain bboxFix (fun p => p) "t_color.png"
        (gather_save_data gEmptyText)).map Prod.snd
      = [FileContent.image (create_text_image_pil stPlain bboxFix "" 512 "Center" "Center" 20 4)]
    ∧ ("" : String) ≠ " " := by
  refine ⟨rfl, by decide, by decide⟩

/-- C9 (amended): only the preview path replaces empty text by a single
space before measurement — `launcher_text` never hands an empty string to
the renderer and maps `""` to `" "` — while the single-export gather path
passes the textbox content to measurement unchanged. -/
theorem claim_empty_text (raw : String) (g : GatherState) :
    launcher_text raw ≠ ""
    ∧ launcher_text "" = " "
    ∧ launcher_text raw = (if raw = "" then " " else raw)
    ∧ (gather_save_data g).text = g.raw_text := by
  refine ⟨?_, rfl, rfl, rfl⟩
  by_cases h : raw = ""
  · simp [launcher_text, h]
  · simp [launcher_text, h]

/-- Witness for C9 (amended) at concrete inputs. -/
theorem claim_empty_text_witness :
    launcher_text "" ≠ ""
    ∧ launcher_text "" = " "
    ∧ launcher_text "" = (if "" = ("" : String) then " " else "")
    ∧ (gather_save_data gEmptyText).text = gEmptyText.raw_text :=
  claim_empty_text "" gEmptyText

/-! ## Batch export abort semantics (C4) -/

theorem batch_loop_spec (saveOk : String → Bool) (dir : String) (mask vmat : Bool) :
    ∀ ds : List Nat,
      (batch_loop saveOk dir mask vmat ds).1
          = ds.takeWhile (fun i => (digit_files dir mask vmat i).all saveOk)
      ∧ ((batch_loop saveOk dir mask vmat ds).2 = none ↔
          ∀ i ∈ ds, ∀ f ∈ digit_files dir mask vmat i, saveOk f = true) := by
  intro ds
  induction ds with
  | nil => simp [batch_loop]
  | cons i rest ih =>
    cases hf : first_failing saveOk (digit_files dir mask vmat i) with
    | some f =>
      have hmem : f ∈ digit_files dir mask vmat i := List.mem_of_find?_eq_some hf
      have hbad : saveOk f = false := by
        have := List.find?_some hf
        simpa using this
      have hall : (digit_files dir mask vmat i).all saveOk = false := by
        rw [List.all_eq_false]
        exact ⟨f, hmem, by simp [hbad]⟩
      constructor
      · simp [batch_loop, hf, List.takeWhile_cons, hall]
      · simp only [batch_loop, hf]
        constructor
        · intro h
          exact absurd h (by simp)
        · intro h
          have := h i (List.mem_cons_self i rest) f hmem
          rw [this] at hbad
          cases hbad
    | none =>
      have hok : ∀ f ∈ digit_files dir mask vmat i, saveOk f = true := by
        intro f hfm
        have := List.find?_eq_none.mp hf f hfm
        simpa using this
      have hall : (digit_files dir mask vmat i).all saveOk = true := by
        rw [List.all_eq_true]
        exact hok
      constructor
      · simp [batch_loop, hf, List.takeWhile_cons, hall, ih.1]
      · simp only [batch_loop, hf]
        rw [ih.2]
        constructor
        · intro h j hj
          rcases List.mem_cons.mp hj with h' | h'
          · exact h' ▸ hok
          · exact h j h'
        · intro h j hj
          exact h j (List.mem_cons_of_mem i hj)

/-- Counterexample to C4 as stated: the whole digit loop sits inside a
single `try`, so a failing write for digit 3 aborts the batch — digit 4 is
not exported even though all of its own writes would succeed. -/
theorem claim_batch_abort_counterexample :
    perform_batch (fun f => !(f == "out/3_color.png")) "out" false false
        = ([0, 1, 2], some "out/3_color.png")
    ∧ (4 : Nat) ∉ (perform_batch (fun f => !(f == "out/3_color.png")) "out" false false).1
    ∧ (digit_files "out" false false 4).all (fun f => !(f == "out/3_color.png")) = true := by
  refine ⟨by decide, by decide, by decide⟩

/-- C4 (amended): the batch exports digits in order up to the first failing
write and aborts there — the exported digits are exactly the longest prefix
of `0..9` whose writes all succeed — and a single top-level error is
reported iff some write of some digit fails. -/
theorem claim_batch_abort (saveOk : String → Bool) (dir : String) (mask vmat : Bool) :
    (perform_batch saveOk dir mask vmat).1
        = (List.range 10).takeWhile (fun i => (digit_files dir mask vmat i).all saveOk)
    ∧ ((perform_batch saveOk dir mask vmat).2 = none ↔
        ∀ i ∈ List.range 10, ∀ f ∈ digit_files dir mask vmat i, saveOk f = true) :=
  batch_loop_spec saveOk dir mask vmat (List.range 10)

/-! ## Texture path relativization (C6) -/

theorem firstMatchTail_some {pat : List Char} :
    ∀ {s b : List Char}, firstMatchTail pat s = some b → ∃ a, s = a ++ pat ++ b := by
  intro s
  induction s with
  | nil =>
    intro b h
    unfold firstMatchTail at h
    split at h
    · rename_i hp
      have hpat : pat = [] := List.prefix_nil.mp (List.isPrefixOf_iff_prefix.mp hp)
      have hb := Option.some.inj h
      exact ⟨[], by simp [hpat, ← hb]⟩
    · cases h
  | cons c cs ih =>
    intro b h
    unfold firstMatchTail at h
    split at h
    · rename_i hp
      obtain ⟨t, ht⟩ := List.isPrefixOf_iff_prefix.mp hp
      have hb := Option.some.inj h
      refine ⟨[], ?_⟩
      have hdrop : List.drop pat.length (c :: cs) = t := by
        rw [← ht]
        exact List.drop_left pat t
      rw [hdrop] at hb
      simp [← ht, hb]
    · obtain ⟨a, ha⟩ := ih h
      exact ⟨c :: a, by simp [ha]⟩

/-- C6: with separators normalized to `/`, a path containing a `materials`
directory segment (the substring `"/materials/"`) maps to the path suffix
starting at that segment, prefixed `materials/`; any other path maps to the
synthetic fallback `materials/<parent-dir-name>/<filename>`. -/
theorem claim_relative_texture_path (p : String) :
    (strContains (normalizeSeps p) "/materials/" = true →
      ∃ a b : List Char,
        (normalizeSeps p).data = a ++ "/materials/".data ++ b
        ∧ get_relative_texture_path p = "materials/" ++ (⟨b⟩ : String))
    ∧ (strContains (normalizeSeps p) "/materials/" = false →
      get_relative_texture_path p
        = "materials/" ++ basename (dirname (normalizeSeps p)) ++ "/"
          ++ basename (normalizeSeps p)) := by
  constructor
  · intro h
    unfold strContains at h
    cases hmt : firstMatchTail "/materials/".data (normalizeSeps p).data with
    | none => rw [hmt] at h; cases h
    | some b =>
      obtain ⟨a, ha⟩ := firstMatchTail_some hmt
      refine ⟨a, b, ha, ?_⟩
      unfold get_relative_texture_path
      dsimp only
      rw [hmt]
  · intro h
    unfold strContains at h
    cases hmt : firstMatchTail "/materials/".data (normalizeSeps p).data with
    | some b => rw [hmt] at h; cases h
    | none =>
      unfold get_relative_texture_path
      dsimp only
      rw [hmt]

/-- Witness for C6 at concrete paths: a Windows-style path under a
`materials` directory takes the segment branch; a path with no `materials`
segment takes the synthetic fallback branch. -/
theorem claim_relative_texture_path_witness :
    (∃ a b : List Char,
      (normalizeSeps "C:\\csgo\\materials\\overlays\\x.png").data
          = a ++ "/materials/".data ++ b
      ∧ get_relative_texture_path "C:\\csgo\\materials\\overlays\\x.png"
          = "materials/" ++ (⟨b⟩ : String))
    ∧ get_relative_texture_path "/home/u/out/x.png"
        = "materials/" ++ basename (dirname (normalizeSeps "/home/u/out/x.png")) ++ "/"
          ++ basename (normalizeSeps "/home/u/out/x.png") :=
  ⟨(claim_relative_texture_path "C:\\csgo\\materials\\overlays\\x.png").1 (by decide),
   (claim_relative_texture_path "/home/u/out/x.png").2 (by decide)⟩

/-! ## Sorting lemmas for the scanned name list -/

theorem charListLe_total : ∀ a b : List Char, charListLe a b = true ∨ charListLe b a = true := by
  intro a
  induction a with
  | nil => intro b; left; rfl
  | cons x xs ih =>
    intro b
    cases b with
    | nil => right; rfl
    | cons y ys =>
      by_cases h₁ : x.toNat < y.toNat
      · left; simp [charListLe, h₁]
      · by_cases h₂ : y.toNat < x.toNat
        · right; simp [charListLe, h₂]
        · rcases ih ys with h | h
          · left; simp [charListLe, h₁, h₂, h]
          · right; simp [charListLe, h₁, h₂, h]

theorem charListLe_trans :
    ∀ a b c : List Char, charListLe a b = true → charListLe b c = true → charListLe a c = true := by
  intro a
  induction a with
  | nil => intro b c _ _; rfl
  | cons x xs ih =>
    intro b c hab hbc
    cases b with
    | nil => simp [charListLe] at hab
    | cons y ys =>
      cases c with
      | nil => simp [charListLe] at hbc
      | cons z zs =>
        simp only [charListLe] at hab hbc ⊢
        by_cases hxy : x.toNat < y.toNat
        · by_cases hyz : y.toNat < z.toNat
          · have : x.toNat < z.toNat := Nat.lt_trans hxy hyz
            simp [this]
          · by_cases hzy : z.toNat < y.toNat
            · rw [if_neg hyz, if_pos hzy] at hbc
              cases hbc
            · have hyzeq : y.toNat = z.toNat := Nat.le_antisymm (Nat.le_of_not_lt hzy) (Nat.le_of_not_lt hyz)
              have : x.toNat < z.toNat := hyzeq ▸ hxy
              simp [this]
        · by_cases hyx : y.toNat < x.toNat
          · rw [if_neg hxy, if_pos hyx] at hab
            cases hab
          · have hxyeq : x.toNat = y.toNat := Nat.le_antisymm (Nat.le_of_not_lt hyx) (Nat.le_of_not_lt hxy)
            rw [if_neg hxy, if_neg hyx] at hab
            by_cases hyz : y.toNat < z.toNat
            · have : x.toNat < z.toNat := hxyeq ▸ hyz
              simp [this]
            · by_cases hzy : z.toNat < y.toNat
              · rw [if_neg hyz, if_pos hzy] at hbc
                cases hbc
              · rw [if_neg hyz, if_neg hzy] at hbc
                have hxz : ¬ x.toNat < z.toNat := by omega
                have hzx : ¬ z.toNat < x.toNat := by omega
                rw [if_neg hxz, if_neg hzx]
                exact ih ys zs hab hbc

theorem strLe_total (a b : String) : strLe a b = true ∨ strLe b a = true :=
  charListLe_total a.data b.data

theorem strLe_trans {a b c : String} (h₁ : strLe a b = true) (h₂ : strLe b c = true) :
    strLe a c = true :=
  charListLe_trans a.data b.data c.data h₁ h₂

theorem insertSorted_perm (a : String) (l : List String) :
    List.Perm (insertSorted a l) (a :: l) := by
  induction l with
  | nil => exact List.Perm.refl _
  | cons b bs ih =>
    unfold insertSorted
    split
    · exact List.Perm.refl _
    · exact List.Perm.trans (List.Perm.cons b ih) (List.Perm.swap a b bs)

theorem sortNames_perm (l : List String) : List.Perm (sortNames l) l := by
  induction l with
  | nil => exact List.Perm.refl _
  | cons a as ih =>
    exact List.Perm.trans (insertSorted_perm a (sortNames as)) (List.Perm.cons a ih)

theorem insertSorted_sorted (a : String) (l : List String)
    (h : List.Pairwise (fun x y => strLe x y = true) l) :
    List.Pairwise (fun x y => strLe x y = true) (insertSorted a l) := by
  induction l with
  | nil => simp [insertSorted]
  | cons b bs ih =>
    unfold insertSorted
    split
    · rename_i hab
      refine List.Pairwise.cons ?_ h
      intro x hx
      rcases List.mem_cons.mp hx with h' | h'
      · rw [h']; exact hab
      · exact strLe_trans hab (List.rel_of_pairwise_cons h h')
    · rename_i hab
      have hba : strLe b a = true := by
        rcases strLe_total a b with h' | h'
        · exact absurd h' hab
        · exact h'
      refine List.Pairwise.cons ?_ (ih (List.Pairwise.of_cons h))
      intro x hx
      have hx' : x ∈ a :: bs := (insertSorted_perm a bs).mem_iff.mp hx
      rcases List.mem_cons.mp hx' with h' | h'
      · rw [h']; exact hba
      · exact List.rel_of_pairwise_cons h h'

theorem sortNames_sorted (l : List String) :
    List.Pairwise (fun x y => strLe x y = true) (sortNames l) := by
  induction l with
  | nil => simp [sortNames]
  | cons a as ih => exact insertSorted_sorted a (sortNames as) ih

/-! ## Catalog lookup lemmas -/

theorem findPath_append (t u : List (String × String)) (n : String) :
    findPath (t ++ u) n
      = (match findPath t n with
         | some v => some v
         | none => findPath u n) := by
  unfold findPath
  rw [List.find?_append]
  cases h : List.find? (fun p => p.1 == n) t <;> simp [h, Option.or]

theorem findPath_singleton (k v n : String) :
    findPath [(k, v)] n = if k = n then some v else none := by
  by_cases h : k = n
  · simp [findPath, List.find?, h]
  · have hb : (k == n) = false := beq_eq_false_iff_ne.mpr h
    simp [findPath, List.find?, hb, h]

theorem scan_fold_lookup (n : String) (hn : n ≠ "") :
    ∀ (files : List FileEnt) (v : List String) (t : List (String × String)),
      findPath (files.foldl scanStep (v, t)).2 n
        = (match findPath t n with
           | some p => some p
           | none =>
             ((files.filter (fun f => hasFontExt f.file
                 && (cleanFontName (splitextStem f.file) == n))).head?).map
               (fun f => path_join f.root f.file)) := by
  intro files
  induction files with
  | nil =>
    intro v t
    simp only [List.foldl_nil, List.filter_nil]
    cases h : findPath t n <;> simp [h]
  | cons f fs ih =>
    intro v t
    rw [List.foldl_cons]
    by_cases hpred : hasFontExt f.file = true
    · by_cases hname : cleanFontName (splitextStem f.file) = n
      · cases hft : findPath t n with
        | some p =>
          have hstep : scanStep (v, t) f = (v, t) := by
            simp [scanStep, hpred, hname, hft]
          rw [hstep, ih v t, hft]
        | none =>
          have hstep : scanStep (v, t) f
              = (v ++ [cleanFontName (splitextStem f.file)],
                 t ++ [(cleanFontName (splitextStem f.file), path_join f.root f.file)]) := by
            simp [scanStep, hpred, hname, hft, hn]
          rw [hstep, ih]
          have ht' : findPath
              (t ++ [(cleanFontName (splitextStem f.file), path_join f.root f.file)]) n
              = some (path_join f.root f.file) := by
            rw [findPath_append, hft]
            simp [findPath_singleton, hname]
          have hkeep : (hasFontExt f.file && (cleanFontName (splitextStem f.file) == n)) = true := by
            simp [hpred, hname]
          simp only [ht', hft, List.filter_cons, hkeep, if_true, List.head?_cons, Option.map_some]
          rfl
      · have hdrop : (hasFontExt f.file && (cleanFontName (splitextStem f.file) == n)) = false := by
          simp [hname]
        by_cases hg : cleanFontName (splitextStem f.file) ≠ ""
            ∧ (findPath t (cleanFontName (splitextStem f.file))).isNone = true
        · have hstep : scanStep (v, t) f
              = (v ++ [cleanFontName (splitextStem f.file)],
                 t ++ [(cleanFontName (splitextStem f.file), path_join f.root f.file)]) := by
            simp [scanStep, hpred, hg]
          rw [hstep, ih]
          have ht' : findPath
              (t ++ [(cleanFontName (splitextStem f.file), path_join f.root f.file)]) n
              = findPath t n := by
            rw [findPath_append]
            cases h : findPath t n
            · simp [findPath_singleton, hname]
            · simp
          rw [ht']
          simp [List.filter_cons, hdrop]
        · have hstep : scanStep (v, t) f = (v, t) := by
            simp only [scanStep, hpred, if_true]
            rw [if_neg hg]
          rw [hstep, ih]
          simp [List.filter_cons, hdrop]
    · have hpred' : hasFontExt f.file = false := by
        exact Bool.not_eq_true _ ▸ eq_false_of_ne_true hpred
      have hstep : scanStep (v, t) f = (v, t) := by
        simp [scanStep, hpred']
      have hdrop : (hasFontExt f.file && (cleanFontName (splitextStem f.file) == n)) = false := by
        simp [hpred']
      rw [hstep, ih]
      simp [List.filter_cons, hdrop]

theorem scan_fold_nodup :
    ∀ (files : List FileEnt) (v : List String) (t : List (String × String)),
      ((files.filter (fun f => hasFontExt f.file)).map
          (fun f => cleanFontName (splitextStem f.file))).Nodup →
      (∀ f ∈ files, hasFontExt f.file = true →
         cleanFontName (splitextStem f.file) ≠ ""
         ∧ findPath t (cleanFontName (splitextStem f.file)) = none) →
      files.foldl scanStep (v, t)
        = (v ++ (files.filter (fun f => hasFontExt f.file)).map
              (fun f => cleanFontName (splitextStem f.file)),
           t ++ (files.filter (fun f => hasFontExt f.file)).map
              (fun f => (cleanFontName (splitextStem f.file), path_join f.root f.file))) := by
  intro files
  induction files with
  | nil =>
    intro v t _ _
    simp
  | cons f fs ih =>
    intro v t hnd hfresh
    rw [List.foldl_cons]
    by_cases hpred : hasFontExt f.file = true
    · have hcf := hfresh f (List.mem_cons_self f fs) hpred
      have hstep : scanStep (v, t) f
          = (v ++ [cleanFontName (splitextStem f.file)],
             t ++ [(cleanFontName (splitextStem f.file), path_join f.root f.file)]) := by
        simp [scanStep, hpred, hcf.1, hcf.2]
      rw [hstep]
      have hfilter : (f :: fs).filter (fun f => hasFontExt f.file)
          = f :: fs.filter (fun f => hasFontExt f.file) := by
        simp [List.filter_cons, hpred]
      rw [hfilter] at hnd ⊢
      simp only [List.map_cons] at hnd ⊢
      have hnotin : cleanFontName (splitextStem f.file)
          ∉ (fs.filter (fun f => hasFontExt f.file)).map
              (fun f => cleanFontName (splitextStem f.file)) :=
        (List.nodup_cons.mp hnd).1
      have ihres := ih (v ++ [cleanFontName (splitextStem f.file)])
          (t ++ [(cleanFontName (splitextStem f.file), path_join f.root f.file)])
          (List.nodup_cons.mp hnd).2 ?_
      · rw [ihres]
        simp
      · intro g hg hgd
        refine ⟨(hfresh g (List.mem_cons_of_mem f hg) hgd).1, ?_⟩
        rw [findPath_append, (hfresh g (List.mem_cons_of_mem f hg) hgd).2]
        have hne : cleanFontName (splitextStem f.file) ≠ cleanFontName (splitextStem g.file) := by
          intro hcontra
          apply hnotin
          rw [hcontra]
          exact List.mem_map_of_mem _ (List.mem_filter.mpr ⟨hg, hgd⟩)
        simp [findPath_singleton, hne]
    · have hpred' : hasFontExt f.file = false := by
        exact Bool.not_eq_true _ ▸ eq_false_of_ne_true hpred
      have hstep : scanStep (v, t) f = (v, t) := by
        simp [scanStep, hpred']
      have hfilter : (f :: fs).filter (fun f => hasFontExt f.file)
          = fs.filter (fun f => hasFontExt f.file) := by
        simp [List.filter_cons, hpred']
      rw [hfilter] at hnd ⊢
      rw [hstep]
      exact ih v t hnd (fun g hg hgd => hfresh g (List.mem_cons_of_mem f hg) hgd)

theorem filter_eq_single_of_nodup_map {α β : Type} [DecidableEq β] (g : α → β) :
    ∀ (l : List α), (l.map g).Nodup → ∀ f ∈ l, l.filter (fun x => g x == g f) = [f] := by
  intro l
  induction l with
  | nil => intro _ f hf; cases hf
  | cons a as ih =>
    intro hnd f hf
    simp only [List.map_cons, List.nodup_cons] at hnd
    rcases List.mem_cons.mp hf with h | h
    · subst h
      have hrest : as.filter (fun x => g x == g f) = [] := by
        rw [List.filter_eq_nil_iff]
        intro x hx
        simp only [beq_iff_eq]
        intro hcontra
        exact hnd.1 (hcontra ▸ List.mem_map_of_mem g hx)
      simp [List.filter_cons, hrest]
    · have hne : (g a == g f) = false := by
        rw [beq_eq_false_iff_ne]
        intro hcontra
        exact hnd.1 (hcontra ▸ List.mem_map_of_mem g h)
      simp [List.filter_cons, hne, ih hnd.2 f h]

/-! ## Cache file round trip -/

theorem decodeStrList_map (l : List String) : decodeStrList (l.map JVal.str) = some l := by
  induction l with
  | nil => rfl
  | cons s rest ih => simp [decodeStrList, ih]

theorem decodeStrPairs_map (l : List (String × String)) :
    decodeStrPairs (l.map (fun p => (p.1, JVal.str p.2))) = some l := by
  induction l with
  | nil => rfl
  | cons p rest ih =>
    cases p with
    | mk k v => simp [decodeStrPairs, ih]

theorem decode_encode (c : Catalog) : decodeCatalog (encodeCatalog c) = some c := by
  simp [encodeCatalog, decodeCatalog, jsonField, List.find?, decodeStrList_map, decodeStrPairs_map]

/-- C8: scanning any walk order, then saving and re-loading the cache file,
reproduces the scanned catalog exactly (first conjunct); the catalog's name
list is sorted (second conjunct); a name's path is always the path of the
first-encountered font file cleaning to that name, so on duplicates the
first path wins (third conjunct); and when the font files clean to distinct
nonempty names, the catalog holds exactly one name and one mapping entry
per font file, mapping each cleaned name to that file's path (fourth
conjunct). -/
theorem claim_catalog_roundtrip (files : List FileEnt) :
    decodeCatalog (encodeCatalog (scanFonts files)) = some (scanFonts files)
    ∧ List.Pairwise (fun a b => strLe a b = true) (scanFonts files).names
    ∧ (∀ n, n ≠ "" →
        findPath (scanFonts files).paths n
          = ((files.filter (fun f => hasFontExt f.file
              && (cleanFontName (splitextStem f.file) == n))).head?).map
              (fun f => path_join f.root f.file))
    ∧ (((files.filter (fun f => hasFontExt f.file)).map
          (fun f => cleanFontName (splitextStem f.file))).Nodup →
       (∀ f ∈ files.filter (fun f => hasFontExt f.file),
          cleanFontName (splitextStem f.file) ≠ "") →
       (scanFonts files).names.length
          = (files.filter (fun f => hasFontExt f.file)).length
       ∧ (scanFonts files).paths.length
          = (files.filter (fun f => hasFontExt f.file)).length
       ∧ ∀ f ∈ files.filter (fun f => hasFontExt f.file),
           findPath (scanFonts files).paths (cleanFontName (splitextStem f.file))
             = some (path_join f.root f.file)) := by
  have hnames : (scanFonts files).names
      = sortNames ((files.foldl scanStep ([], [])).1).dedup := rfl
  have hpaths : (scanFonts files).paths = (files.foldl scanStep ([], [])).2 := rfl
  have hlook : ∀ n, n ≠ "" →
      findPath (scanFonts files).paths n
        = ((files.filter (fun f => hasFontExt f.file
            && (cleanFontName (splitextStem f.file) == n))).head?).map
            (fun f => path_join f.root f.file) := by
    intro n hn
    rw [hpaths, scan_fold_lookup n hn files [] []]
    rfl
  refine ⟨decode_encode _, ?_, hlook, ?_⟩
  · rw [hnames]
    exact sortNames_sorted _
  · intro hnd hne
    have hfold := scan_fold_nodup files [] [] hnd ?_
    · have hv : (files.foldl scanStep ([], [])).1
          = (files.filter (fun f => hasFontExt f.file)).map
              (fun f => cleanFontName (splitextStem f.file)) := by
        rw [hfold]
        simp
      have hp : (files.foldl scanStep ([], [])).2
          = (files.filter (fun f => hasFontExt f.file)).map
              (fun f => (cleanFontName (splitextStem f.file), path_join f.root f.file)) := by
        rw [hfold]
        simp
      refine ⟨?_, ?_, ?_⟩
      · rw [hnames, hv, List.dedup_eq_self.mpr hnd, (sortNames_perm _).length_eq,
            List.length_map]
      · rw [hpaths, hp, List.length_map]
      · intro f hf
        have hmemf : f ∈ files := (List.mem_filter.mp hf).1
        have hpredf : hasFontExt f.file = true := (List.mem_filter.mp hf).2
        have hnf : cleanFontName (splitextStem f.file) ≠ "" := hne f hf
        rw [hlook _ hnf]
        have hsingle : files.filter (fun g => hasFontExt g.file
            && (cleanFontName (splitextStem g.file) == cleanFontName (splitextStem f.file)))
            = [f] := by
          calc files.filter (fun g => hasFontExt g.file
                && (cleanFontName (splitextStem g.file) == cleanFontName (splitextStem f.file)))
              = files.filter (fun g =>
                  (cleanFontName (splitextStem g.file) == cleanFontName (splitextStem f.file))
                  && hasFontExt g.file) := by
                simp only [Bool.and_comm]
            _ = (files.filter (fun g => hasFontExt g.file)).filter
                  (fun g => cleanFontName (splitextStem g.file)
                      == cleanFontName (splitextStem f.file)) :=
                (List.filter_filter _ _).symm
            _ = [f] :=
                filter_eq_single_of_nodup_map
                  (fun g => cleanFontName (splitextStem g.file)) _ hnd f hf
        rw [hsingle]
        rfl
    · intro g _ hgd
      refine ⟨?_, rfl⟩
      exact hne g (List.mem_filter.mpr ⟨by assumption, hgd⟩)

/-- Witness for C8 at a concrete walk: two font files with distinct cleaned
names and one non-font file scan to a two-entry catalog that survives the
save/load round trip, has its names sorted, and maps each cleaned name to
the first matching path. -/
theorem claim_catalog_roundtrip_witness :
    findPath (scanFonts [⟨"/f", "Zeta-Bold.ttf"⟩, ⟨"/g", "Alpha.otf"⟩, ⟨"/f", "notes.txt"⟩]).paths
        "Alpha" = some "/g/Alpha.otf"
    ∧ (scanFonts [⟨"/f", "Zeta-Bold.ttf"⟩, ⟨"/g", "Alpha.otf"⟩, ⟨"/f", "notes.txt"⟩]).names.length
        = 2 := by
  have h := claim_catalog_roundtrip [⟨"/f", "Zeta-Bold.ttf"⟩, ⟨"/g", "Alpha.otf"⟩, ⟨"/f", "notes.txt"⟩]
  have h4 := h.2.2.2 (by decide) (by decide)
  refine ⟨?_, ?_⟩
  · have := h.2.2.1 "Alpha" (by decide)
    rw [this]
    decide
  · rw [h4.1]
    decide

end TextImageGen
